import Mathlib

/-!
Verification of the `nsequence` library core (`nsequence.py`) against its
natural-language specification.

The embedding models the numeric domain of the Python code (ints and floats
used as exact values) with `ℚ`.  Fallible methods return `Except SeqError`,
mirroring the exception classes of `exceptions.py`.  Positions used as loop
counters are `ℕ`; indices handed to the user-supplied functions are `ℚ`
(the code deliberately lets non-integral intermediate indices flow through).
Each definition is translated from the corresponding Python method; comments
cite the source lines.
-/

/-- Module constant `POSITION_LIMIT = 1_000_000` (nsequence.py line 22). -/
def POSITION_LIMIT : ℕ := 1000000

/-- Module constant `DEFAULT_INITIAL_INDEX = 0` (line 24). -/
def DEFAULT_INITIAL_INDEX : ℤ := 0

/-- Module constant `INITIAL_POSITION = 1` (line 26). -/
def INITIAL_POSITION : ℕ := 1

/-- The exception kinds of `exceptions.py` that the modelled methods can raise. -/
inductive SeqError where
  | unexpectedIndex
  | unexpectedPosition
  | inversion
  | indexNotFound
  deriving DecidableEq

/-- Python `NSequence._is_integer(value)` is `value % 1 == 0` (line 737): the
value has zero fractional part, i.e. equals its own floor. -/
def IsInt (q : ℚ) : Prop := (⌊q⌋ : ℚ) = q

instance (q : ℚ) : Decidable (IsInt q) :=
  inferInstanceAs (Decidable ((⌊q⌋ : ℚ) = q))

/-- State of a constructed `NSequence` (the `self._...` attributes after
`__init__`, lines 30-89).  After construction `indexing_func` is always
present (the default one is installed when none is supplied), while
`indexing_inverse_func` may be absent when a custom `indexing_func` was
given without an inverse. -/
structure NSeq where
  func : ℚ → ℚ
  inverse_func : Option (ℚ → ℚ)
  indexing_func : ℚ → ℚ
  indexing_inverse_func : Option (ℚ → ℚ)
  position_limit : ℕ

/-- The constructor logic of `__init__` (lines 75-89): a supplied
`indexing_func` is kept together with the (possibly absent)
`indexing_inverse_func`; otherwise the default linear indexing
`p ↦ initial_index + p - 1` and its inverse are installed.
`position_limit or POSITION_LIMIT` and `initial_index or 0` model Python's
`or` defaults (`None` and `0` are both falsy). -/
def mkNSeq (func : ℚ → ℚ) (inverse_func : Option (ℚ → ℚ))
    (indexing_func : Option (ℚ → ℚ)) (indexing_inverse_func : Option (ℚ → ℚ))
    (initial_index : Option ℤ) (position_limit : Option ℕ) : NSeq :=
  let lim := position_limit.getD 0
  let lim := if lim = 0 then POSITION_LIMIT else lim
  match indexing_func with
  | some g =>
      { func := func, inverse_func := inverse_func, indexing_func := g,
        indexing_inverse_func := indexing_inverse_func, position_limit := lim }
  | none =>
      let i0 : ℚ := ((initial_index.getD DEFAULT_INITIAL_INDEX : ℤ) : ℚ)
      { func := func, inverse_func := inverse_func,
        indexing_func := fun p => i0 + p - 1,
        indexing_inverse_func := some (fun i => i - i0 + 1),
        position_limit := lim }

namespace NSeq

/-- Python `nth_term(n)` (lines 131-151): `_validate_positions(n)` demands an
integral value `≥ INITIAL_POSITION = 1` (no upper bound is passed, lines
740-750), raising `UnexpectedPositionError` otherwise; then the term is
`func(indexing_func(n))`. -/
def nthTerm (s : NSeq) (n : ℚ) : Except SeqError ℚ :=
  if IsInt n ∧ 1 ≤ n then .ok (s.func (s.indexing_func n))
  else .error .unexpectedPosition

end NSeq

/-- First-match linear scan: `next(p for p in range(start, start+fuel) if pred p)`.
Used by `position_of_index` and the brute-force branch of `index_of_term`,
both of which scan `range(1, POSITION_LIMIT)`. -/
def findFirst (pred : ℕ → Prop) [DecidablePred pred] : ℕ → ℕ → Option ℕ
  | _, 0 => none
  | start, fuel + 1 => if pred start then some start else findFirst pred (start + 1) fuel

namespace NSeq

/-- Python `position_of_index(index)` (lines 538-572): if
`indexing_inverse_func` is available it is applied directly; otherwise the
code scans `p in range(1, POSITION_LIMIT)` — the module constant, not the
instance's `position_limit` — for the first `p` with
`indexing_func(p) == index`, raising `IndexNotFoundError` when the scan is
exhausted. -/
def position_of_index (s : NSeq) (index : ℚ) : Except SeqError ℚ :=
  match s.indexing_inverse_func with
  | some h => .ok (h index)
  | none =>
      match findFirst (fun p => s.indexing_func p = index) 1 (POSITION_LIMIT - 1) with
      | some p => .ok p
      | none => .error .indexNotFound

/-- The list comprehension
`[self.nth_term(position) for position in range(start, start + count)]`
(lines 373-376), evaluated left to right with the first raised exception
propagating. -/
def termsFromPositions (s : NSeq) : ℤ → ℕ → Except SeqError (List ℚ)
  | _, 0 => .ok []
  | start, count + 1 =>
      match s.nthTerm start, s.termsFromPositions (start + 1) count with
      | .ok t, .ok ts => .ok (t :: ts)
      | .error e, _ => .error e
      | .ok _, .error e => .error e

/-- Python `terms_between_indices(index1, index2)` (lines 356-376).  The
source reassigns `index1 = min(index1, index2)` and then computes
`index2 = max(index1, index2)` with the already-reassigned `index1`; the
positions of both indices are resolved and the inclusive position range is
mapped through `nth_term`.  Positions coming back from `position_of_index`
are used as `range` endpoints, hence taken at their integer value. -/
def terms_between_indices (s : NSeq) (index1 index2 : ℤ) : Except SeqError (List ℚ) :=
  let a : ℤ := min index1 index2
  let b : ℤ := max a index2
  match s.position_of_index a, s.position_of_index b with
  | .ok p1, .ok p2 => s.termsFromPositions ⌊p1⌋ (⌊p2⌋ + 1 - ⌊p1⌋).toNat
  | .error e, _ => .error e
  | .ok _, .error e => .error e

/-- The brute-force branch of `index_of_term` (lines 226-240): first position
in `range(1, POSITION_LIMIT)` whose `nth_term` equals the term, mapped
through `indexing_func`; `None` when the scan finds nothing. -/
def brute_force_index (s : NSeq) (term : ℚ) : Option ℚ :=
  (findFirst (fun p => s.func (s.indexing_func p) = term) 1 (POSITION_LIMIT - 1)).map
    fun p => s.indexing_func p

/-- The `index` local variable of `index_of_term` (lines 219-240): the
inverse image when `inverse_func` exists — regardless of
`inversion_technic` — and the brute-force scan result otherwise. -/
def computed_index (s : NSeq) (term : ℚ) : Option ℚ :=
  match s.inverse_func with
  | some inv => some (inv term)
  | none => s.brute_force_index term

/-- Python `index_of_term(term, inversion_technic, exact_exception)`
(lines 189-249): `InversionError` when inversion is requested without an
`inverse_func`; then the computed index is returned as-is when
`exact_exception` is false, and otherwise validated by `_validate_indices`
(`UnexpectedIndexError` on `None` or a non-integral value) and returned. -/
def index_of_term (s : NSeq) (term : ℚ)
    (inversion_technic : Bool) (exact_exception : Bool) : Except SeqError (Option ℚ) :=
  if s.inverse_func.isNone && inversion_technic then .error .inversion
  else
    let index := s.computed_index term
    if exact_exception = false then .ok index
    else
      match index with
      | some i => if IsInt i then .ok (some i) else .error .unexpectedIndex
      | none => .error .unexpectedIndex

/-- Python `_inversely_get_sequence_nearest_entry` (lines 657-727):
resolve `idx = inverse_func(term_neighbor)` and `pos = position_of_index(idx)`;
raise `UnexpectedIndexError` when `pos` is integral but `idx` is not; return
`(idx, term_neighbor)` when both are integral; otherwise compare the two
candidate terms at `floor(pos)` and `ceil(pos)` (fetched through `nth_term`,
which validates them as positions) and pick by distance with the
`prefer_left_term` tie-break. -/
def inverselyNearestEntry (s : NSeq) (inv : ℚ → ℚ) (t : ℚ)
    (preferLeft : Bool) : Except SeqError (ℚ × ℚ) :=
  let idx := inv t
  match s.position_of_index idx with
  | .error e => .error e
  | .ok pos =>
      if IsInt pos ∧ ¬ IsInt idx then .error .unexpectedIndex
      else if IsInt pos ∧ IsInt idx then .ok (idx, t)
      else
        let lp : ℤ := ⌊pos⌋
        let rp : ℤ := ⌈pos⌉
        match s.nthTerm lp, s.nthTerm rp with
        | .ok ltm, .ok rtm =>
            let ld := |t - ltm|
            let rd := |t - rtm|
            let chosen : ℤ :=
              if preferLeft = false ∧ ld = rd then rp
              else if ld > rd then rp
              else lp
            match s.nthTerm chosen with
            | .ok ctm => .ok (s.indexing_func chosen, ctm)
            | .error e => .error e
        | .error e, _ => .error e
        | .ok _, .error e => .error e

/-- The comparison `distance < min_distance` where `min_distance` starts as
`float("inf")` (modelled by `none`): every finite distance beats infinity. -/
def distLT (d : ℚ) : Option ℚ → Prop
  | none => True
  | some m => d < m

instance (d : ℚ) : (m' : Option ℚ) → Decidable (distLT d m')
  | none => .isTrue trivial
  | some m => inferInstanceAs (Decidable (d < m))

/-- The scan loop of `_naively_get_sequence_nearest_entry` (lines 633-655)
over the pairs produced by `_create_sequence_pairs_generator` (lines
591-597): track the minimum distance, replacing the best entry on a strictly
smaller distance or — when `prefer_left_term` is false — on an equal one;
break out as soon as a zero distance is seen with `prefer_left_term` true.
`minDist = none` models the initial `float("inf")`. -/
def naiveScan (s : NSeq) (t : ℚ) (preferLeft : Bool) :
    ℕ → ℕ → Option ℚ → Option (ℚ × ℚ) → Option (ℚ × ℚ)
  | 0, _, _, best => best
  | fuel + 1, pos, minDist, best =>
      let idx := s.indexing_func pos
      let term := s.func idx
      let d := |term - t|
      -- `(distance == min_distance and not prefer_left_term) or
      --  (distance < min_distance)` — `minDist = some d` is the equality
      -- test (always false against the initial infinity)
      if (minDist = some d ∧ preferLeft = false) ∨ distLT d minDist then
        if preferLeft = true ∧ d = 0 then some (idx, term)
        else naiveScan s t preferLeft fuel (pos + 1) (some d) (some (idx, term))
      else
        if preferLeft = true ∧ d = 0 then best
        else naiveScan s t preferLeft fuel (pos + 1) minDist best

/-- Python `_naively_get_sequence_nearest_entry` (lines 599-655): normalize
`iter_limit or position_limit` and `starting_position or 1` (0 models both
`None` and `0`, which Python's `or` treats alike), then run the scan. -/
def naivelyNearestEntry (s : NSeq) (t : ℚ) (startingPosition iterLimit : ℕ)
    (preferLeft : Bool) : Option (ℚ × ℚ) :=
  let il := if iterLimit = 0 then s.position_limit else iterLimit
  let sp := if startingPosition = 0 then INITIAL_POSITION else startingPosition
  naiveScan s t preferLeft il sp none none

/-- Python `nearest_entry` (lines 469-536): with `inversion_technic` true an
`inverse_func` is required (`InversionError` otherwise) and the inversion
helper runs; with it false the naive helper runs on the normalized
`starting_position`/`iter_limit` (lines 517-519). -/
def nearest_entry (s : NSeq) (t : ℚ) (inversion_technic : Bool)
    (startingPosition iterLimit : ℕ) (preferLeft : Bool) :
    Except SeqError (Option (ℚ × ℚ)) :=
  if inversion_technic then
    match s.inverse_func with
    | none => .error .inversion
    | some inv => (s.inverselyNearestEntry inv t preferLeft).map some
  else
    let il := if iterLimit = 0 then s.position_limit else iterLimit
    let sp := if startingPosition = 0 then INITIAL_POSITION else startingPosition
    .ok (s.naivelyNearestEntry t sp il preferLeft)

end NSeq

/-! ### Basic facts about the embedding -/

lemma isInt_natCast (n : ℕ) : IsInt (n : ℚ) := by simp [IsInt]

lemma isInt_intCast (z : ℤ) : IsInt (z : ℚ) := by simp [IsInt]

lemma nthTerm_nat (s : NSeq) (p : ℕ) (h1 : 1 ≤ p) :
    s.nthTerm p = .ok (s.func (s.indexing_func p)) := by
  unfold NSeq.nthTerm
  rw [if_pos ⟨isInt_natCast p, by exact_mod_cast h1⟩]

lemma nthTerm_int (s : NSeq) (z : ℤ) (h1 : 1 ≤ z) :
    s.nthTerm z = .ok (s.func (s.indexing_func z)) := by
  unfold NSeq.nthTerm
  rw [if_pos ⟨isInt_intCast z, by exact_mod_cast h1⟩]

lemma nthTerm_cases (s : NSeq) (n : ℚ) :
    (∃ v, s.nthTerm n = .ok v) ∨ s.nthTerm n = .error .unexpectedPosition := by
  unfold NSeq.nthTerm
  split
  · exact Or.inl ⟨_, rfl⟩
  · exact Or.inr rfl

lemma nthTerm_error (s : NSeq) (n : ℚ) (e : SeqError)
    (h : s.nthTerm n = .error e) : e = .unexpectedPosition := by
  unfold NSeq.nthTerm at h
  split at h
  · exact absurd h (by simp)
  · cases h
    rfl

/-! ### Example sequences used as concrete instances -/

/-- Identity sequence with default indexing (`indexing_func p = 0 + p - 1`)
and `position_limit = 5`. -/
def seqId5 : NSeq := mkNSeq (fun x => x) none none none none (some 5)

/-- Identity sequence whose `inverse_func` halves its input — a deliberately
inexact inverse producing non-integral indices. -/
def seqHalfInv : NSeq := mkNSeq (fun x => x) (some (fun x => x / 2)) none none none (some 5)

/-! ### C6: nth_term computes func(indexing_func(p)) on valid positions -/

/-- Claim C6: for every position p with 1 ≤ p ≤ position_limit,
nth_term(p) equals func(indexing_func(p)). -/
theorem claim_C6 (s : NSeq) (p : ℕ) (h1 : 1 ≤ p) (h2 : p ≤ s.position_limit) :
    s.nthTerm p = .ok (s.func (s.indexing_func p)) :=
  nthTerm_nat s p h1

/-- Witness for C6 at the concrete sequence `seqId5` and position 3. -/
theorem claim_C6_witness :
    seqId5.nthTerm 3 = .ok (seqId5.func (seqId5.indexing_func 3)) :=
  claim_C6 seqId5 3 (by norm_num) (by norm_num [seqId5, mkNSeq, POSITION_LIMIT])

/-! ### C9: nth_term enforces no upper bound on its position -/

/-- Claim C9: nth_term succeeds with func(indexing_func(n)) for every
integral n ≥ 1 — including n beyond position_limit, on which no upper bound
is checked — and raises UnexpectedPositionError exactly when n is
non-integral or n < 1. -/
theorem claim_C9 (s : NSeq) (n : ℚ) :
    (IsInt n → 1 ≤ n → s.nthTerm n = .ok (s.func (s.indexing_func n)))
    ∧ (¬ IsInt n ∨ n < 1 → s.nthTerm n = .error .unexpectedPosition) := by
  constructor
  · intro h1 h2
    unfold NSeq.nthTerm
    rw [if_pos ⟨h1, h2⟩]
  · intro h
    unfold NSeq.nthTerm
    rw [if_neg]
    rintro ⟨hi, hle⟩
    rcases h with h | h
    · exact h hi
    · exact absurd hle (not_le.mpr h)

/-- Witness for C9: `seqId5` has `position_limit = 5`, yet `nth_term 12`
succeeds. -/
theorem claim_C9_witness :
    seqId5.nthTerm 12 = .ok (seqId5.func (seqId5.indexing_func 12))
    ∧ seqId5.position_limit = 5 :=
  ⟨(claim_C9 seqId5 12).1 (by norm_num [IsInt]) (by norm_num), rfl⟩

/-! ### C10: naive nearest_entry treats 0 arguments as the defaults -/

/-- Claim C10: in the naive strategy, iter_limit = 0 behaves as
iter_limit = position_limit and starting_position = 0 behaves as
starting_position = 1 (`INITIAL_POSITION`), exactly like omitting them. -/
theorem claim_C10 (s : NSeq) (t : ℚ) (sp il : ℕ) (pl : Bool) :
    s.nearest_entry t false sp 0 pl = s.nearest_entry t false sp s.position_limit pl
    ∧ s.nearest_entry t false 0 il pl = s.nearest_entry t false INITIAL_POSITION il pl := by
  constructor
  · unfold NSeq.nearest_entry
    simp [NSeq.naivelyNearestEntry]
  · unfold NSeq.nearest_entry
    simp [NSeq.naivelyNearestEntry, INITIAL_POSITION]

/-! ### C7: index_of_term and the exact_exception flag -/

/-- Claim C7: outside the InversionError guard, index_of_term with
exact_exception false returns the computed index as-is (possibly None or
non-integral); with the flag true it raises UnexpectedIndexError on a None
or non-integral index and otherwise returns the (integral) index. -/
theorem claim_C7 (s : NSeq) (term : ℚ) (it : Bool)
    (hno : ¬ (s.inverse_func = none ∧ it = true)) :
    s.index_of_term term it false = .ok (s.computed_index term)
    ∧ (s.computed_index term = none →
        s.index_of_term term it true = .error .unexpectedIndex)
    ∧ (∀ i : ℚ, s.computed_index term = some i → ¬ IsInt i →
        s.index_of_term term it true = .error .unexpectedIndex)
    ∧ (∀ i : ℚ, s.computed_index term = some i → IsInt i →
        s.index_of_term term it true = .ok (some i)) := by
  have hg : (s.inverse_func.isNone && it) = false := by
    cases hi : s.inverse_func <;> cases it <;> simp_all
  refine ⟨?_, ?_, ?_, ?_⟩
  · unfold NSeq.index_of_term
    rw [hg]
    simp
  · intro hidx
    unfold NSeq.index_of_term
    rw [hg]
    simp [hidx]
  · intro i hidx hni
    unfold NSeq.index_of_term
    rw [hg]
    simp [hidx, hni]
  · intro i hidx hii
    unfold NSeq.index_of_term
    rw [hg]
    simp [hidx, hii]

/-- Witness for C7: on `seqHalfInv` the computed index of term 1 is the
non-integral 1/2, returned verbatim in non-exact mode and rejected with
UnexpectedIndexError in exact mode. -/
theorem claim_C7_witness :
    seqHalfInv.index_of_term 1 true false = .ok (some (1 / 2))
    ∧ seqHalfInv.index_of_term 1 true true = .error .unexpectedIndex := by
  have h := claim_C7 seqHalfInv 1 true (by simp [seqHalfInv, mkNSeq])
  refine ⟨h.1, h.2.2.1 (1 / 2) rfl ?_⟩
  norm_num [IsInt]

/-! ### C8: index_of_term strategy selection and InversionError -/

/-- Claim C8: index_of_term raises InversionError exactly when
inversion_technic is true and no inverse_func exists; whenever an
inverse_func exists the index is inverse_func(term) — even with
inversion_technic false — and the brute-force scan is used only when no
inverse_func exists. -/
theorem claim_C8 (s : NSeq) (term : ℚ) (it ex : Bool) :
    (s.index_of_term term it ex = .error .inversion ↔
      s.inverse_func = none ∧ it = true)
    ∧ (∀ inv, s.inverse_func = some inv →
        s.index_of_term term it false = .ok (some (inv term)))
    ∧ (s.inverse_func = none →
        s.index_of_term term false false = .ok (s.brute_force_index term)) := by
  refine ⟨?_, ?_, ?_⟩
  · cases hg : (s.inverse_func.isNone && it)
    · constructor
      · intro herr
        exfalso
        unfold NSeq.index_of_term at herr
        rw [hg] at herr
        simp only [Bool.false_eq_true, if_false] at herr
        split at herr
        · simp at herr
        · split at herr
          · split at herr <;> simp at herr
          · simp at herr
      · rintro ⟨hn, rfl⟩
        rw [hn] at hg
        simp at hg
    · have : s.inverse_func = none ∧ it = true := by
        rcases Bool.and_eq_true _ _ |>.mp hg with ⟨h1, h2⟩
        exact ⟨Option.isNone_iff_eq_none.mp h1, h2⟩
      constructor
      · intro _
        exact this
      · intro _
        unfold NSeq.index_of_term
        rw [hg]
        simp
  · intro inv hinv
    have hg : (s.inverse_func.isNone && it) = false := by
      rw [hinv]
      simp
    unfold NSeq.index_of_term
    rw [hg]
    simp [NSeq.computed_index, hinv]
  · intro hn
    unfold NSeq.index_of_term
    rw [hn]
    simp [NSeq.computed_index, hn]

/-- Witness for C8: with an inverse_func present the returned index is its
image even though inversion_technic is false. -/
theorem claim_C8_witness :
    seqHalfInv.index_of_term 3 false false = .ok (some (3 / 2)) :=
  (claim_C8 seqHalfInv 3 false false).2.1 (fun x => x / 2) rfl

/-! ### C1: terms_between_indices is not order-independent (aliasing slip) -/

/-- Claim C1 fails on the code: after `index1 = min(index1, index2)` the
source computes `index2 = max(index1, index2)` with the reassigned `index1`,
so for arguments (3, 1) both endpoints collapse to the smaller index 1 and a
single term is returned, while (1, 3) yields the full inclusive range. -/
theorem claim_C1_eval :
    seqId5.terms_between_indices 3 1 = .ok [1]
    ∧ seqId5.terms_between_indices 1 3 = .ok [1, 2, 3]
    ∧ seqId5.terms_between_indices 3 1 ≠ seqId5.terms_between_indices 1 3 := by
  have h1 : seqId5.terms_between_indices 3 1 = .ok [1] := by
    norm_num [NSeq.terms_between_indices, NSeq.position_of_index, seqId5, mkNSeq,
      NSeq.termsFromPositions, NSeq.nthTerm, IsInt, POSITION_LIMIT, DEFAULT_INITIAL_INDEX]
  have h2 : seqId5.terms_between_indices 1 3 = .ok [1, 2, 3] := by
    norm_num [NSeq.terms_between_indices, NSeq.position_of_index, seqId5, mkNSeq,
      NSeq.termsFromPositions, NSeq.nthTerm, IsInt, POSITION_LIMIT, DEFAULT_INITIAL_INDEX]
  refine ⟨h1, h2, ?_⟩
  rw [h1, h2]
  simp

/-! ### Lemmas about the first-match scan -/

lemma findFirst_eq_none_iff (pred : ℕ → Prop) [DecidablePred pred] :
    ∀ (fuel start : ℕ), findFirst pred start fuel = none ↔ ∀ k, k < fuel → ¬ pred (start + k) := by
  intro fuel
  induction fuel with
  | zero => intro start; simp [findFirst]
  | succ n ih =>
      intro start
      simp only [findFirst]
      by_cases hp : pred start
      · rw [if_pos hp]
        constructor
        · intro h
          exact absurd h (Option.some_ne_none start)
        · intro h
          exact absurd hp (by simpa using h 0 (Nat.succ_pos n))
      · rw [if_neg hp, ih]
        constructor
        · intro h k hk
          cases k with
          | zero => simpa using hp
          | succ j =>
              have hj := h j (by omega)
              have e : start + 1 + j = start + (j + 1) := by omega
              rwa [e] at hj
        · intro h k hk
          have hk1 := h (k + 1) (by omega)
          have e : start + 1 + k = start + (k + 1) := by omega
          rwa [e]

lemma findFirst_some_spec (pred : ℕ → Prop) [DecidablePred pred] :
    ∀ (fuel start p : ℕ), findFirst pred start fuel = some p →
      pred p ∧ start ≤ p ∧ p < start + fuel := by
  intro fuel
  induction fuel with
  | zero => intro start p h; simp [findFirst] at h
  | succ n ih =>
      intro start p h
      simp only [findFirst] at h
      by_cases hp : pred start
      · rw [if_pos hp] at h
        cases h
        exact ⟨hp, le_rfl, by omega⟩
      · rw [if_neg hp] at h
        obtain ⟨h1, h2, h3⟩ := ih (start + 1) p h
        exact ⟨h1, by omega, by omega⟩

lemma findFirst_eq_some (pred : ℕ → Prop) [DecidablePred pred] :
    ∀ (fuel start p : ℕ), pred p → start ≤ p → p < start + fuel →
      (∀ q, start ≤ q → q < p → ¬ pred q) → findFirst pred start fuel = some p := by
  intro fuel
  induction fuel with
  | zero => intro start p _ h1 h2 _; omega
  | succ n ih =>
      intro start p hp h1 h2 hfirst
      simp only [findFirst]
      by_cases hs : pred start
      · have he : start = p := by
          by_contra hne
          exact hfirst start le_rfl (by omega) hs
        rw [if_pos hs, he]
      · rw [if_neg hs]
        have hne : start ≠ p := fun h => hs (h ▸ hp)
        exact ih (start + 1) p hp (by omega) (by omega)
          (fun q hq1 hq2 => hfirst q (by omega) hq2)

/-! ### C5: position_of_index scan bound -/

/-- Sequence with a custom `indexing_func p = p`, no
`indexing_inverse_func`, and `position_limit = 2`. -/
def seqScan2 : NSeq := mkNSeq (fun x => x) none (some (fun p => p)) none none (some 2)

lemma seqScan2_eq :
    seqScan2 = { func := fun x => x, inverse_func := none,
                 indexing_func := fun p => p, indexing_inverse_func := none,
                 position_limit := 2 } := rfl

/-- Counterexample to claim C5 as stated: on `seqScan2` the configured
`position_limit` is 2 and no position within that bound maps to index 4,
yet `position_of_index 4` does not fail with IndexNotFoundError — the scan
runs to the module constant `POSITION_LIMIT`, finds position 4 and returns
it. -/
theorem claim_C5_counterexample :
    seqScan2.position_limit = 2
    ∧ seqScan2.indexing_func 1 ≠ 4
    ∧ seqScan2.indexing_func 2 ≠ 4
    ∧ seqScan2.position_of_index 4 = .ok 4 := by
  refine ⟨rfl, by norm_num [seqScan2_eq], by norm_num [seqScan2_eq], ?_⟩
  have hf : findFirst (fun p => seqScan2.indexing_func p = 4) 1 (POSITION_LIMIT - 1)
      = some 4 := by
    apply findFirst_eq_some
    · show seqScan2.indexing_func (4 : ℕ) = 4
      norm_num [seqScan2_eq]
    · omega
    · simp only [POSITION_LIMIT]
      omega
    · intro q h1 h2
      interval_cases q <;> norm_num [seqScan2_eq]
  unfold NSeq.position_of_index
  rw [seqScan2_eq] at hf ⊢
  simp only [hf]
  norm_num

/-- Claim C5 amended: the brute-force branch of position_of_index scans
positions 1 up to the module constant POSITION_LIMIT (exclusive),
independently of the instance's position_limit; it returns the first
matching position and fails with IndexNotFoundError exactly when no
position in that fixed range matches. -/
theorem claim_C5 (s : NSeq) (hs : s.indexing_inverse_func = none) (i : ℚ) :
    (s.position_of_index i = .error .indexNotFound ↔
      ∀ p : ℕ, 1 ≤ p → p ≤ POSITION_LIMIT - 1 → s.indexing_func p ≠ i)
    ∧ ∀ p : ℕ, 1 ≤ p → p ≤ POSITION_LIMIT - 1 → s.indexing_func p = i →
        (∀ q : ℕ, 1 ≤ q → q < p → s.indexing_func q ≠ i) →
        s.position_of_index i = .ok p := by
  constructor
  · unfold NSeq.position_of_index
    rw [hs]
    cases hf : findFirst (fun p => s.indexing_func p = i) 1 (POSITION_LIMIT - 1) with
    | some p =>
        obtain ⟨h1, h2, h3⟩ := findFirst_some_spec _ _ _ _ hf
        constructor
        · intro h
          exact absurd h (by simp)
        · intro h
          exact absurd h1 (h p h2 (by simp only [POSITION_LIMIT] at h3 ⊢; omega))
    | none =>
        rw [findFirst_eq_none_iff] at hf
        constructor
        · intro _ p hp1 hp2
          have := hf (p - 1) (by simp only [POSITION_LIMIT] at hp2 ⊢; omega)
          have e : 1 + (p - 1) = p := by omega
          rwa [e] at this
        · intro _
          rfl
  · intro p hp1 hp2 hmatch hfirst
    unfold NSeq.position_of_index
    rw [hs]
    have hf : findFirst (fun q => s.indexing_func q = i) 1 (POSITION_LIMIT - 1)
        = some p := by
      apply findFirst_eq_some _ _ _ _ hmatch hp1
        (by simp only [POSITION_LIMIT] at hp2 ⊢; omega)
      intro q hq1 hq2
      exact hfirst q hq1 hq2
    rw [hf]

/-- Witness for the amended C5: the first match is returned. -/
theorem claim_C5_witness : seqScan2.position_of_index 1 = .ok 1 :=
  (claim_C5 seqScan2 rfl 1).2 1 (by norm_num)
    (by simp only [POSITION_LIMIT]; omega)
    (by norm_num [seqScan2_eq])
    (by intro q h1 h2; omega)

/-! ### C2: inversion nearest_entry integrality mismatch -/

/-- Sequence with indexing `p ↦ 2p`, inverse indexing `i ↦ i/2`, identity
func and exact identity inverse_func: indices are even, so an odd term
yields an integral index with a non-integral position. -/
def seqDouble : NSeq :=
  mkNSeq (fun x => x) (some (fun x => x)) (some (fun p => 2 * p))
    (some (fun i => i / 2)) none (some 5)

lemma seqDouble_eq :
    seqDouble = { func := fun x => x, inverse_func := some (fun x => x),
                  indexing_func := fun p => 2 * p,
                  indexing_inverse_func := some (fun i => i / 2),
                  position_limit := 5 } := rfl

/-- Sequence whose inverse_func halves and whose inverse indexing shifts by
1/2: term 1 yields a non-integral index 1/2 with an integral position 1. -/
def seqOff : NSeq :=
  mkNSeq (fun x => x) (some (fun x => x / 2)) (some (fun p => 2 * p))
    (some (fun i => i + 1 / 2)) none (some 5)

lemma seqOff_eq :
    seqOff = { func := fun x => x, inverse_func := some (fun x => x / 2),
               indexing_func := fun p => 2 * p,
               indexing_inverse_func := some (fun i => i + 1 / 2),
               position_limit := 5 } := rfl

/-- Counterexample to claim C2 as stated: on `seqDouble` with term_neighbor
3 the index 3 is integral while the position 3/2 is not — "exactly one of
pos and idx is integral" — yet the call does not fail with
UnexpectedIndexError: it proceeds to the floor/ceil search and returns the
entry (2, 2). -/
theorem claim_C2_counterexample :
    IsInt (3 : ℚ)
    ∧ seqDouble.position_of_index 3 = .ok (3 / 2)
    ∧ ¬ IsInt (3 / 2 : ℚ)
    ∧ seqDouble.nearest_entry 3 true 0 0 true = .ok (some (2, 2)) := by
  have hceil : ⌈(3 / 2 : ℚ)⌉ = 2 := by
    rw [Int.ceil_eq_iff]
    norm_num
  refine ⟨by norm_num [IsInt], by norm_num [NSeq.position_of_index, seqDouble_eq],
    by norm_num [IsInt], ?_⟩
  norm_num [NSeq.nearest_entry, NSeq.inverselyNearestEntry, NSeq.position_of_index,
    seqDouble_eq, NSeq.nthTerm, IsInt, Except.map, hceil]

/-- Claim C2 amended: with the inversion strategy, letting
idx = inverse_func(term_neighbor) and pos = position_of_index(idx), the call
fails with UnexpectedIndexError when pos is integral and idx is not; in the
opposite mismatch (idx integral, pos non-integral) no UnexpectedIndexError
is raised — the floor/ceil neighbor search proceeds instead. -/
theorem claim_C2 (s : NSeq) (inv : ℚ → ℚ) (t pos : ℚ) (pl : Bool)
    (hinv : s.inverse_func = some inv)
    (hpos : s.position_of_index (inv t) = .ok pos) :
    (IsInt pos → ¬ IsInt (inv t) →
      s.nearest_entry t true 0 0 pl = .error .unexpectedIndex)
    ∧ (¬ IsInt pos → s.nearest_entry t true 0 0 pl ≠ .error .unexpectedIndex) := by
  have hmap : ∀ (x : Except SeqError (ℚ × ℚ)) (e : SeqError),
      x.map some = .error e ↔ x = .error e := by
    intro x e
    cases x <;> simp [Except.map]
  constructor
  · intro hip hni
    simp only [NSeq.nearest_entry, if_true, hinv]
    rw [hmap]
    unfold NSeq.inverselyNearestEntry
    simp only [hpos]
    rw [if_pos ⟨hip, hni⟩]
  · intro hni
    simp only [NSeq.nearest_entry, if_true, hinv]
    rw [Ne, hmap]
    unfold NSeq.inverselyNearestEntry
    simp only [hpos]
    rw [if_neg (fun h => hni h.1), if_neg (fun h => hni h.1)]
    split
    · split
      · simp
      · rename_i e heq
        rw [nthTerm_error s _ _ heq]
        simp
    · rename_i e heq
      rw [nthTerm_error s _ _ heq]
      simp
    · rename_i e heq
      rw [nthTerm_error s _ _ heq]
      simp

/-- Witness for the amended C2: on `seqOff`, term 1 gives the non-integral
index 1/2 with integral position 1, and the call fails with
UnexpectedIndexError. -/
theorem claim_C2_witness :
    seqOff.nearest_entry 1 true 0 0 true = .error .unexpectedIndex :=
  (claim_C2 seqOff (fun x => x / 2) 1 1 true rfl
      (by norm_num [NSeq.position_of_index, seqOff_eq])).1
    (by norm_num [IsInt]) (by norm_num [IsInt])

/-! ### Lemmas about the naive nearest-entry scan -/

lemma naiveScan_true_keep (s : NSeq) (t : ℚ) :
    ∀ (fuel pos : ℕ) (m : ℚ) (e : ℚ × ℚ),
      (∀ r : ℕ, pos ≤ r → r < pos + fuel → m ≤ |s.func (s.indexing_func r) - t|) →
      NSeq.naiveScan s t true fuel pos (some m) (some e) = some e := by
  intro fuel
  induction fuel with
  | zero => intro pos m e _; rfl
  | succ n ih =>
      intro pos m e h
      have hd : m ≤ |s.func (s.indexing_func pos) - t| := h pos le_rfl (by omega)
      simp only [NSeq.naiveScan, Bool.true_eq_false, Bool.false_eq_true,
        eq_self_iff_true, true_and, and_true, false_and, and_false, false_or,
        or_false, if_false]
      rw [if_neg ?_]
      · by_cases hz : |s.func (s.indexing_func pos) - t| = 0
        · rw [if_pos hz]
        · rw [if_neg hz]
          exact ih (pos + 1) m e (fun r a b => h r (by omega) (by omega))
      · intro hlt
        exact absurd hlt (not_lt.mpr hd)

lemma naiveScan_false_keep (s : NSeq) (t : ℚ) :
    ∀ (fuel pos : ℕ) (m : ℚ) (e : ℚ × ℚ),
      (∀ r : ℕ, pos ≤ r → r < pos + fuel → m < |s.func (s.indexing_func r) - t|) →
      NSeq.naiveScan s t false fuel pos (some m) (some e) = some e := by
  intro fuel
  induction fuel with
  | zero => intro pos m e _; rfl
  | succ n ih =>
      intro pos m e h
      have hd : m < |s.func (s.indexing_func pos) - t| := h pos le_rfl (by omega)
      simp only [NSeq.naiveScan, Bool.true_eq_false, Bool.false_eq_true,
        eq_self_iff_true, true_and, and_true, false_and, and_false, false_or,
        or_false, if_false]
      rw [if_neg ?_]
      · exact ih (pos + 1) m e (fun r a b => h r (by omega) (by omega))
      · rintro (hmd | hlt)
        · injection hmd with hh
          exact absurd hh (ne_of_lt hd)
        · exact absurd hlt (not_lt.mpr (le_of_lt hd))

lemma naiveScan_true_min (s : NSeq) (t : ℚ) :
    ∀ (fuel pos : ℕ) (m' : Option ℚ) (best : Option (ℚ × ℚ)) (q0 : ℕ),
      pos ≤ q0 → q0 < pos + fuel →
      (∀ r : ℕ, pos ≤ r → r < pos + fuel →
        |s.func (s.indexing_func q0) - t| ≤ |s.func (s.indexing_func r) - t|) →
      (∀ r : ℕ, pos ≤ r → r < q0 →
        |s.func (s.indexing_func q0) - t| < |s.func (s.indexing_func r) - t|) →
      (∀ m, m' = some m → |s.func (s.indexing_func q0) - t| < m) →
      NSeq.naiveScan s t true fuel pos m' best
        = some (s.indexing_func q0, s.func (s.indexing_func q0)) := by
  intro fuel
  induction fuel with
  | zero => intro pos m' best q0 h1 h2 _ _ _; omega
  | succ n ih =>
      intro pos m' best q0 h1 h2 hmin hbefore hm
      simp only [NSeq.naiveScan, Bool.true_eq_false, Bool.false_eq_true,
        eq_self_iff_true, true_and, and_true, false_and, and_false, false_or,
        or_false, if_false]
      by_cases hq : pos = q0
      · subst hq
        have hdist : NSeq.distLT (|s.func (s.indexing_func pos) - t|) m' := by
          cases m' with
          | none => trivial
          | some m => exact hm m rfl
        rw [if_pos hdist]
        by_cases hz : |s.func (s.indexing_func pos) - t| = 0
        · rw [if_pos hz]
        · rw [if_neg hz]
          exact naiveScan_true_keep s t n (pos + 1) _ _
            (fun r a b => hmin r (by omega) (by omega))
      · have hposlt : pos < q0 := by omega
        have hdgt : |s.func (s.indexing_func q0) - t|
            < |s.func (s.indexing_func pos) - t| := hbefore pos le_rfl hposlt
        have hz : ¬ (|s.func (s.indexing_func pos) - t| = 0) := by
          intro h0
          rw [h0] at hdgt
          exact absurd hdgt (not_lt.mpr (abs_nonneg _))
        by_cases hrep : NSeq.distLT (|s.func (s.indexing_func pos) - t|) m'
        · rw [if_pos hrep, if_neg hz]
          refine ih (pos + 1) (some _) _ q0 (by omega) (by omega)
            (fun r a b => hmin r (by omega) (by omega))
            (fun r a b => hbefore r (by omega) b) ?_
          intro m hm'
          injection hm' with hh
          rw [← hh]
          exact hdgt
        · rw [if_neg hrep, if_neg hz]
          exact ih (pos + 1) m' _ q0 (by omega) (by omega)
            (fun r a b => hmin r (by omega) (by omega))
            (fun r a b => hbefore r (by omega) b) hm

lemma naiveScan_false_min (s : NSeq) (t : ℚ) :
    ∀ (fuel pos : ℕ) (m' : Option ℚ) (best : Option (ℚ × ℚ)) (q1 : ℕ),
      pos ≤ q1 → q1 < pos + fuel →
      (∀ r : ℕ, pos ≤ r → r < pos + fuel →
        |s.func (s.indexing_func q1) - t| ≤ |s.func (s.indexing_func r) - t|) →
      (∀ r : ℕ, q1 < r → r < pos + fuel →
        |s.func (s.indexing_func q1) - t| < |s.func (s.indexing_func r) - t|) →
      (∀ m, m' = some m → |s.func (s.indexing_func q1) - t| ≤ m) →
      NSeq.naiveScan s t false fuel pos m' best
        = some (s.indexing_func q1, s.func (s.indexing_func q1)) := by
  intro fuel
  induction fuel with
  | zero => intro pos m' best q1 h1 h2 _ _ _; omega
  | succ n ih =>
      intro pos m' best q1 h1 h2 hmin hafter hm
      simp only [NSeq.naiveScan, Bool.true_eq_false, Bool.false_eq_true,
        eq_self_iff_true, true_and, and_true, false_and, and_false, false_or,
        or_false, if_false]
      by_cases hq : pos = q1
      · subst hq
        have hdist : m' = some (|s.func (s.indexing_func pos) - t|)
            ∨ NSeq.distLT (|s.func (s.indexing_func pos) - t|) m' := by
          cases m' with
          | none => exact Or.inr trivial
          | some m =>
              rcases lt_or_eq_of_le (hm m rfl) with hlt | heq
              · exact Or.inr hlt
              · exact Or.inl (by rw [heq])
        rw [if_pos hdist]
        exact naiveScan_false_keep s t n (pos + 1) _ _
          (fun r a b => hafter r (by omega) (by omega))
      · have hposlt : pos < q1 := by omega
        have hdge : |s.func (s.indexing_func q1) - t|
            ≤ |s.func (s.indexing_func pos) - t| := hmin pos le_rfl (by omega)
        by_cases hrep : m' = some (|s.func (s.indexing_func pos) - t|)
            ∨ NSeq.distLT (|s.func (s.indexing_func pos) - t|) m'
        · rw [if_pos hrep]
          refine ih (pos + 1) (some _) _ q1 (by omega) (by omega)
            (fun r a b => hmin r (by omega) (by omega))
            (fun r a b => hafter r a (by omega)) ?_
          intro m hm'
          injection hm' with hh
          rw [← hh]
          exact hdge
        · rw [if_neg hrep]
          exact ih (pos + 1) m' _ q1 (by omega) (by omega)
            (fun r a b => hmin r (by omega) (by omega))
            (fun r a b => hafter r a (by omega)) hm

lemma nearest_entry_naive (s : NSeq) (t : ℚ) (sp il : ℕ) (pl : Bool)
    (hsp : sp ≠ 0) (hil : il ≠ 0) :
    s.nearest_entry t false sp il pl = .ok (NSeq.naiveScan s t pl il sp none none) := by
  unfold NSeq.nearest_entry NSeq.naivelyNearestEntry
  simp [hsp, hil]

lemma nearest_entry_naive_default (s : NSeq) (t : ℚ) (pl : Bool) :
    s.nearest_entry t false 0 0 pl
      = .ok (NSeq.naiveScan s t pl s.position_limit 1 none none) := by
  unfold NSeq.nearest_entry NSeq.naivelyNearestEntry
  simp [INITIAL_POSITION]

lemma nearest_entry_inv_candidates (s : NSeq) (inv : ℚ → ℚ) (t pos : ℚ)
    (hinv : s.inverse_func = some inv)
    (hpos : s.position_of_index (inv t) = .ok pos)
    (hni : ¬ IsInt pos) (hfl : 1 ≤ ⌊pos⌋) (pl : Bool) :
    s.nearest_entry t true 0 0 pl =
      .ok (some
        ((fun c : ℤ => (s.indexing_func c, s.func (s.indexing_func c)))
          (if pl = false ∧ |t - s.func (s.indexing_func (⌊pos⌋ : ℤ))|
                = |t - s.func (s.indexing_func (⌈pos⌉ : ℤ))| then ⌈pos⌉
           else if |t - s.func (s.indexing_func (⌊pos⌋ : ℤ))|
                > |t - s.func (s.indexing_func (⌈pos⌉ : ℤ))| then ⌈pos⌉
           else ⌊pos⌋))) := by
  simp only [NSeq.nearest_entry, if_true, hinv]
  unfold NSeq.inverselyNearestEntry
  simp only [hpos]
  rw [if_neg (fun h => hni h.1), if_neg (fun h => hni h.1)]
  have hrl : (1 : ℤ) ≤ ⌈pos⌉ := le_trans hfl (Int.floor_le_ceil pos)
  rw [nthTerm_int s ⌊pos⌋ hfl, nthTerm_int s ⌈pos⌉ hrl]
  dsimp only
  rw [nthTerm_int s _ ?_]
  · rfl
  · split_ifs
    · exact hrl
    · exact hrl
    · exact hfl

/-! ### C4: prefer_left_term tie-break -/

/-- Claim C4: the two prefer_left_term variants agree except exactly at
equidistant ties.  For the inversion strategy (once the floor/ceil candidate
stage is reached): at a tie the prefer-left call returns the floor (left)
candidate and the prefer-right call the ceil (right) candidate, and a
strictly smaller distance wins regardless of the flag.  For the naive
strategy: the prefer-left call returns the entry of the least
distance-minimizing position q0 of the scanned window and the prefer-right
call that of the greatest minimizer q1 — equal entries whenever the
minimizer is unique, differing (lower vs higher position) exactly at
ties. -/
theorem claim_C4 (s : NSeq) (inv : ℚ → ℚ) (t pos : ℚ) (sp il q0 q1 : ℕ)
    (hinv : s.inverse_func = some inv)
    (hpos : s.position_of_index (inv t) = .ok pos)
    (hni : ¬ IsInt pos) (hfl : 1 ≤ ⌊pos⌋)
    (hsp : sp ≠ 0) (hil : il ≠ 0)
    (hq0l : sp ≤ q0) (hq0r : q0 < sp + il)
    (hq1l : sp ≤ q1) (hq1r : q1 < sp + il)
    (hmin0 : ∀ r : ℕ, sp ≤ r → r < sp + il →
      |s.func (s.indexing_func q0) - t| ≤ |s.func (s.indexing_func r) - t|)
    (hbefore0 : ∀ r : ℕ, sp ≤ r → r < q0 →
      |s.func (s.indexing_func q0) - t| < |s.func (s.indexing_func r) - t|)
    (hmin1 : ∀ r : ℕ, sp ≤ r → r < sp + il →
      |s.func (s.indexing_func q1) - t| ≤ |s.func (s.indexing_func r) - t|)
    (hafter1 : ∀ r : ℕ, q1 < r → r < sp + il →
      |s.func (s.indexing_func q1) - t| < |s.func (s.indexing_func r) - t|) :
    ((|t - s.func (s.indexing_func (⌊pos⌋ : ℤ))|
          = |t - s.func (s.indexing_func (⌈pos⌉ : ℤ))| →
        s.nearest_entry t true 0 0 true
          = .ok (some (s.indexing_func (⌊pos⌋ : ℤ), s.func (s.indexing_func (⌊pos⌋ : ℤ))))
        ∧ s.nearest_entry t true 0 0 false
          = .ok (some (s.indexing_func (⌈pos⌉ : ℤ), s.func (s.indexing_func (⌈pos⌉ : ℤ)))))
      ∧ (|t - s.func (s.indexing_func (⌊pos⌋ : ℤ))|
            < |t - s.func (s.indexing_func (⌈pos⌉ : ℤ))| →
        ∀ pl : Bool, s.nearest_entry t true 0 0 pl
          = .ok (some (s.indexing_func (⌊pos⌋ : ℤ), s.func (s.indexing_func (⌊pos⌋ : ℤ)))))
      ∧ (|t - s.func (s.indexing_func (⌈pos⌉ : ℤ))|
            < |t - s.func (s.indexing_func (⌊pos⌋ : ℤ))| →
        ∀ pl : Bool, s.nearest_entry t true 0 0 pl
          = .ok (some (s.indexing_func (⌈pos⌉ : ℤ), s.func (s.indexing_func (⌈pos⌉ : ℤ))))))
    ∧ (s.nearest_entry t false sp il true
        = .ok (some (s.indexing_func q0, s.func (s.indexing_func q0)))
      ∧ s.nearest_entry t false sp il false
        = .ok (some (s.indexing_func q1, s.func (s.indexing_func q1)))) := by
  refine ⟨⟨?_, ?_, ?_⟩, ?_, ?_⟩
  · intro htie
    constructor
    · rw [nearest_entry_inv_candidates s inv t pos hinv hpos hni hfl true]
      rw [if_neg (fun hc => Bool.noConfusion hc.1)]
      rw [if_neg (by rw [htie]; exact lt_irrefl _)]
    · rw [nearest_entry_inv_candidates s inv t pos hinv hpos hni hfl false]
      rw [if_pos ⟨rfl, htie⟩]
  · intro hlt pl
    rw [nearest_entry_inv_candidates s inv t pos hinv hpos hni hfl pl]
    rw [if_neg (fun hc => absurd hc.2 (ne_of_lt hlt))]
    rw [if_neg (lt_asymm hlt)]
  · intro hgt pl
    rw [nearest_entry_inv_candidates s inv t pos hinv hpos hni hfl pl]
    rw [if_neg (fun hc => absurd hc.2 (ne_of_gt hgt))]
    rw [if_pos hgt]
  · rw [nearest_entry_naive s t sp il true hsp hil,
      naiveScan_true_min s t il sp none none q0 hq0l hq0r hmin0 hbefore0
        (fun m hm => Option.noConfusion hm)]
  · rw [nearest_entry_naive s t sp il false hsp hil,
      naiveScan_false_min s t il sp none none q1 hq1l hq1r hmin1 hafter1
        (fun m hm => Option.noConfusion hm)]

/-- Identity sequence with custom identity indexing and its inverse,
`position_limit = 4`. -/
def seqC4 : NSeq :=
  mkNSeq (fun x => x) (some (fun x => x)) (some (fun p => p))
    (some (fun i => i)) none (some 4)

lemma seqC4_eq :
    seqC4 = { func := fun x => x, inverse_func := some (fun x => x),
              indexing_func := fun p => p, indexing_inverse_func := some (fun i => i),
              position_limit := 4 } := rfl

/-- Witness for C4: at the midpoint 3/2 of `seqC4` both strategies return
the left entry (1, 1) with prefer_left_term true and the right entry (2, 2)
with prefer_left_term false. -/
theorem claim_C4_witness :
    seqC4.nearest_entry (3 / 2) true 0 0 true = .ok (some (1, 1))
    ∧ seqC4.nearest_entry (3 / 2) true 0 0 false = .ok (some (2, 2))
    ∧ seqC4.nearest_entry (3 / 2) false 1 4 true = .ok (some (1, 1))
    ∧ seqC4.nearest_entry (3 / 2) false 1 4 false = .ok (some (2, 2)) := by
  have hflv : (⌊(3 / 2 : ℚ)⌋ : ℤ) = 1 := by norm_num
  have hclv : (⌈(3 / 2 : ℚ)⌉ : ℤ) = 2 := by
    rw [Int.ceil_eq_iff]
    norm_num
  have h := claim_C4 seqC4 (fun x => x) (3 / 2) (3 / 2) 1 4 1 2 rfl
    (by norm_num [NSeq.position_of_index, seqC4_eq])
    (by norm_num [IsInt])
    (by rw [hflv])
    (by norm_num) (by norm_num)
    (by norm_num) (by norm_num)
    (by norm_num) (by norm_num)
    (by intro r h1 h2; interval_cases r <;> norm_num [seqC4_eq, abs_of_nonneg])
    (by intro r h1 h2; omega)
    (by intro r h1 h2; interval_cases r <;> norm_num [seqC4_eq, abs_of_nonneg])
    (by intro r h1 h2; interval_cases r <;> norm_num [seqC4_eq, abs_of_nonneg])
  have htie : |(3 / 2 : ℚ) - seqC4.func (seqC4.indexing_func ((⌊(3 / 2 : ℚ)⌋ : ℤ) : ℚ))|
      = |(3 / 2 : ℚ) - seqC4.func (seqC4.indexing_func ((⌈(3 / 2 : ℚ)⌉ : ℤ) : ℚ))| := by
    rw [hflv, hclv]
    norm_num [seqC4_eq]
  obtain ⟨hl, hr⟩ := h.1.1 htie
  rw [hflv] at hl
  rw [hclv] at hr
  have hnt := h.2.1
  have hnf := h.2.2
  refine ⟨?_, ?_, ?_, ?_⟩
  · rw [hl]
    norm_num [seqC4_eq]
  · rw [hr]
    norm_num [seqC4_eq]
  · rw [hnt]
    norm_num [seqC4_eq]
  · rw [hnf]
    norm_num [seqC4_eq]

/-! ### C3: exact-inverse round trip through nearest_entry -/

/-- Identity sequence whose inverse_func is an exact inverse of
func ∘ indexing_func, but whose indexing_inverse_func (i ↦ i/2) is
inconsistent with the identity indexing_func. -/
def seqBadInv : NSeq :=
  mkNSeq (fun x => x) (some (fun x => x)) (some (fun p => p))
    (some (fun i => i / 2)) none (some 6)

lemma seqBadInv_eq :
    seqBadInv = { func := fun x => x, inverse_func := some (fun x => x),
                  indexing_func := fun p => p,
                  indexing_inverse_func := some (fun i => i / 2),
                  position_limit := 6 } := rfl

/-- Counterexample to claim C3 as stated: `seqBadInv` has an exact
inverse_func (the identity, inverting the identity func ∘ indexing_func),
and 3 = nth_term(3), yet nearest_entry(3) with the inversion strategy
returns (2, 2) instead of (indexing_func(3), 3) = (3, 3), because the
inconsistent indexing_inverse_func resolves index 3 to position 3/2. -/
theorem claim_C3_counterexample :
    seqBadInv.nthTerm 3 = .ok 3
    ∧ seqBadInv.position_of_index 3 = .ok (3 / 2)
    ∧ seqBadInv.nearest_entry 3 true 0 0 true = .ok (some (2, 2)) := by
  have hflv : (⌊(3 / 2 : ℚ)⌋ : ℤ) = 1 := by norm_num
  have hclv : (⌈(3 / 2 : ℚ)⌉ : ℤ) = 2 := by
    rw [Int.ceil_eq_iff]
    norm_num
  refine ⟨by norm_num [NSeq.nthTerm, IsInt, seqBadInv_eq],
    by norm_num [NSeq.position_of_index, seqBadInv_eq], ?_⟩
  have h := nearest_entry_inv_candidates seqBadInv (fun x => x) 3 (3 / 2) rfl
    (by norm_num [NSeq.position_of_index, seqBadInv_eq])
    (by norm_num [IsInt]) (by rw [hflv])
    true
  rw [h, hflv, hclv]
  norm_num [seqBadInv_eq, abs_of_nonneg]

/-- Claim C3 amended: for a sequence whose inverse_func exactly inverts
func ∘ indexing_func on valid positions, whose indexing machinery is
self-consistent at p (position_of_index(indexing_func(p)) = p) and whose
index at p is integral, nearest_entry(nth_term(p)) returns
(indexing_func(p), nth_term(p)) under both strategies. -/
theorem claim_C3 (s : NSeq) (inv : ℚ → ℚ) (p : ℕ)
    (hinv : s.inverse_func = some inv)
    (hexact : ∀ q : ℕ, 1 ≤ q → q ≤ s.position_limit →
      inv (s.func (s.indexing_func q)) = s.indexing_func q)
    (hp1 : 1 ≤ p) (hp2 : p ≤ s.position_limit)
    (hpos : s.position_of_index (s.indexing_func p) = .ok p)
    (hidx : IsInt (s.indexing_func p)) :
    s.nearest_entry (s.func (s.indexing_func p)) true 0 0 true
      = .ok (some (s.indexing_func p, s.func (s.indexing_func p)))
    ∧ s.nearest_entry (s.func (s.indexing_func p)) false 0 0 true
      = .ok (some (s.indexing_func p, s.func (s.indexing_func p))) := by
  constructor
  · simp only [NSeq.nearest_entry, if_true, hinv]
    unfold NSeq.inverselyNearestEntry
    simp only [hexact p hp1 hp2, hpos]
    rw [if_neg (fun hc => hc.2 hidx), if_pos ⟨isInt_natCast p, hidx⟩]
    rfl
  · have hex : ∃ q : ℕ, 1 ≤ q
        ∧ s.func (s.indexing_func q) = s.func (s.indexing_func p) :=
      ⟨p, hp1, rfl⟩
    set q0 := Nat.find hex with hq0def
    obtain ⟨hq01, hq0t⟩ := Nat.find_spec hex
    have hq0le : q0 ≤ p := Nat.find_le ⟨hp1, rfl⟩
    have hlim : s.position_limit ≠ 0 := by omega
    rw [nearest_entry_naive_default s (s.func (s.indexing_func p)) true]
    have hdist0 : |s.func (s.indexing_func q0) - s.func (s.indexing_func p)| = 0 := by
      rw [hq0t, sub_self, abs_zero]
    rw [naiveScan_true_min s (s.func (s.indexing_func p)) s.position_limit 1
      none none q0 hq01 (by omega) ?_ ?_ (fun m hm => Option.noConfusion hm)]
    · have hgq : s.indexing_func (q0 : ℕ) = s.indexing_func (p : ℕ) := by
        have e1 := hexact q0 hq01 (le_trans hq0le hp2)
        have e2 := hexact p hp1 hp2
        rw [hq0t] at e1
        rw [← e1, e2]
      rw [hq0t, hgq]
    · intro r h1 h2
      rw [hdist0]
      exact abs_nonneg _
    · intro r h1 h2
      rw [hdist0]
      have hnr : ¬ (1 ≤ r ∧ s.func (s.indexing_func r) = s.func (s.indexing_func p)) :=
        Nat.find_min hex h2
      have : s.func (s.indexing_func r) ≠ s.func (s.indexing_func p) :=
        fun he => hnr ⟨h1, he⟩
      exact abs_pos.mpr (sub_ne_zero.mpr this)

/-- Identity sequence with exact identity inverse_func, default indexing and
`position_limit = 5`. -/
def seqGoodInv : NSeq := mkNSeq (fun x => x) (some (fun x => x)) none none none (some 5)

lemma seqGoodInv_eq :
    seqGoodInv = { func := fun x => x, inverse_func := some (fun x => x),
                   indexing_func := fun p => ((0 : ℤ) : ℚ) + p - 1,
                   indexing_inverse_func := some (fun i => i - ((0 : ℤ) : ℚ) + 1),
                   position_limit := 5 } := rfl

/-- Witness for the amended C3 at position 3 of `seqGoodInv`. -/
theorem claim_C3_witness :
    seqGoodInv.nearest_entry (seqGoodInv.func (seqGoodInv.indexing_func 3)) true 0 0 true
      = .ok (some (seqGoodInv.indexing_func 3, seqGoodInv.func (seqGoodInv.indexing_func 3)))
    ∧ seqGoodInv.nearest_entry (seqGoodInv.func (seqGoodInv.indexing_func 3)) false 0 0 true
      = .ok (some (seqGoodInv.indexing_func 3, seqGoodInv.func (seqGoodInv.indexing_func 3))) :=
  claim_C3 seqGoodInv (fun x => x) 3 rfl
    (fun _ _ _ => rfl)
    (by norm_num) (by norm_num [seqGoodInv_eq])
    (by norm_num [NSeq.position_of_index, seqGoodInv_eq])
    (by norm_num [IsInt, seqGoodInv_eq])
